import Mathlib

/-!
Shallow embedding of the FASTQ statistics engine in `fastq_qui.py`
(class `FastqReader` and the engine calls made by
`FastqAnalyzerGUI.full_analysis`).  A file is modelled as the list of its
lines; `readline` past the end of file returns the empty string.  Exact
rational arithmetic stands in for Python's float division, and `Option`
models a raised exception (`none` = the computation raised).
-/

/-- The whitespace characters removed by Python's `str.strip()`:
space, tab, newline, carriage return, vertical tab, form feed. -/
def pyWhitespace (c : Char) : Bool :=
  c == ' ' || c == '\t' || c == '\n' || c == '\r' ||
  c == Char.ofNat 11 || c == Char.ofNat 12

/-- Python `str.strip()`: drop whitespace from both ends. -/
def pstrip (s : String) : String :=
  ⟨((s.data.dropWhile pyWhitespace).reverse.dropWhile pyWhitespace).reverse⟩

/-- One record group yielded by `FastqReader._read_fastq_chunks`: the four
stripped lines (header, sequence, separator, quality). -/
structure Chunk where
  header : String
  seq : String
  sep : String
  qual : String
deriving DecidableEq

/-- `FastqReader._read_fastq_chunks`: repeatedly read four lines (a missing
line reads as the empty string), strip each, stop as soon as the stripped
first line of a group is empty, otherwise yield the group and continue. -/
def readFastqChunks : List String → List Chunk
  | [] => []
  | [l0] =>
    if pstrip l0 = "" then [] else [⟨pstrip l0, "", "", ""⟩]
  | [l0, l1] =>
    if pstrip l0 = "" then [] else [⟨pstrip l0, pstrip l1, "", ""⟩]
  | [l0, l1, l2] =>
    if pstrip l0 = "" then [] else [⟨pstrip l0, pstrip l1, pstrip l2, ""⟩]
  | l0 :: l1 :: l2 :: l3 :: rest =>
    if pstrip l0 = "" then []
    else ⟨pstrip l0, pstrip l1, pstrip l2, pstrip l3⟩ :: readFastqChunks rest

/-- `FastqReader.calculate_statistics`: one pass over the chunk stream,
counting records and accumulating the length of each sequence line. -/
def calculate_statistics (ls : List String) : ℕ × ℕ :=
  (readFastqChunks ls).foldl (fun p ch => (p.1 + 1, p.2 + ch.seq.data.length)) (0, 0)

/-- `FastqReader.get_average_length` on a fresh reader: `0` when the sequence
count is zero, otherwise total length divided by the count. -/
def get_average_length (ls : List String) : ℚ :=
  if (calculate_statistics ls).1 = 0 then 0
  else ((calculate_statistics ls).2 : ℚ) / ((calculate_statistics ls).1 : ℚ)

/-- Aggregation state of `collect_quality_data`: the defaultdicts
`quality_sums` and `quality_counts`, and `max_position`. -/
structure QState where
  sums : ℕ → ℤ
  counts : ℕ → ℕ
  maxPos : ℕ

/-- Initial quality state: empty defaultdicts, `max_position = 0`. -/
def qInit : QState := ⟨fun _ => 0, fun _ => 0, 0⟩

/-- One quality character at position `n`: add `ord(char) - 33` to
`quality_sums[n]`, increment `quality_counts[n]`, update `max_position`. -/
def qStepChar (s : QState) (n : ℕ) (c : Char) : QState :=
  { sums := fun j => if j = n then s.sums j + ((c.toNat : ℤ) - 33) else s.sums j
    counts := fun j => if j = n then s.counts j + 1 else s.counts j
    maxPos := max s.maxPos n }

/-- `for i, char in enumerate(quality_line)` with the enumeration starting
at index `n`. -/
def qCharsFold (s : QState) (n : ℕ) : List Char → QState
  | [] => s
  | c :: cs => qCharsFold (qStepChar s n c) (n + 1) cs

/-- The quality aggregation loop of `collect_quality_data` over all chunks. -/
def qFold (chunks : List Chunk) : QState :=
  chunks.foldl (fun s ch => qCharsFold s 0 ch.qual.data) qInit

/-- Left-to-right evaluation of a list comprehension whose elements may
raise; `none` models the exception escaping the comprehension. -/
def seqOptQ (f : ℕ → Option ℚ) : List ℕ → Option (List ℚ)
  | [] => some []
  | i :: is =>
    match f i with
    | none => none
    | some q =>
      match seqOptQ f is with
      | none => none
      | some qs => some (q :: qs)

/-- `FastqReader.collect_quality_data` body: the 1-based position labels
`1..max_position+1` and the averages `quality_sums[i] / quality_counts[i]`
for `i in range(max_position + 1)`; `none` models the `ZeroDivisionError`
raised when some `quality_counts[i]` is zero. -/
def collect_quality_data (ls : List String) : Option (List ℕ × List ℚ) :=
  let s := qFold (readFastqChunks ls)
  match seqOptQ (fun i => if s.counts i = 0 then none
      else some ((s.sums i : ℚ) / (s.counts i : ℚ))) (List.range (s.maxPos + 1)) with
  | none => none
  | some avgs => some (List.range' 1 (s.maxPos + 1), avgs)

/-- `FastqReader.collect_length_data`: the per-record sequence-line lengths
in file order. -/
def collect_length_data (ls : List String) : List ℕ :=
  (readFastqChunks ls).map (fun ch => ch.seq.data.length)

/-- The four recognized bases, in the insertion order of the
`base_counts` dict. -/
def acgt : List Char := ['A', 'C', 'G', 'T']

/-- Aggregation state of `collect_content_data`: `base_counts`,
`total_counts` and `max_position`. -/
structure CState where
  counts : Char → ℕ → ℕ
  total : ℕ → ℕ
  maxPos : ℕ

/-- Initial content state: empty defaultdicts, `max_position = 0`. -/
def cInit : CState := ⟨fun _ _ => 0, fun _ => 0, 0⟩

/-- One sequence character at position `n`: uppercase it; when the result is
one of A, C, G, T, increment `base_counts[base][n]` and `total_counts[n]`
and update `max_position`, otherwise do nothing. -/
def cStepChar (s : CState) (n : ℕ) (c : Char) : CState :=
  if c.toUpper ∈ acgt then
    { counts := fun b j => if b = c.toUpper ∧ j = n then s.counts b j + 1 else s.counts b j
      total := fun j => if j = n then s.total j + 1 else s.total j
      maxPos := max s.maxPos n }
  else s

/-- `for i, base in enumerate(sequence_line)` with the enumeration starting
at index `n`. -/
def cCharsFold (s : CState) (n : ℕ) : List Char → CState
  | [] => s
  | c :: cs => cCharsFold (cStepChar s n c) (n + 1) cs

/-- The content aggregation loop of `collect_content_data` over all chunks. -/
def cFold (chunks : List Chunk) : CState :=
  chunks.foldl (fun s ch => cCharsFold s 0 ch.seq.data) cInit

/-- Percentage list for one base:
`counts[i] / total_counts[i] * 100 if total_counts[i] > 0 else 0`. -/
def pctList (s : CState) (b : Char) : List ℚ :=
  (List.range (s.maxPos + 1)).map (fun i =>
    if 0 < s.total i then (s.counts b i : ℚ) / (s.total i : ℚ) * 100 else 0)

/-- `FastqReader.collect_content_data`: the 1-based position labels and, per
base in dict order A, C, G, T, its percentage list. -/
def collect_content_data (ls : List String) : List ℕ × List (Char × List ℚ) :=
  let s := cFold (readFastqChunks ls)
  (List.range' 1 (s.maxPos + 1), acgt.map (fun b => (b, pctList s b)))

/-- The decoded score contributed to position `i` by one quality line:
`ord(char) - 33` when the line reaches position `i`, nothing otherwise. -/
def qscoreAt (l : List Char) (i : ℕ) : ℤ :=
  match l.get? i with
  | some c => (c.toNat : ℤ) - 33
  | none => 0

/-- Total decoded quality score at position `i` over all records. -/
def qsum (chunks : List Chunk) (i : ℕ) : ℤ :=
  (chunks.map (fun ch => qscoreAt ch.qual.data i)).sum

/-- Number of records whose quality string reaches position `i`. -/
def qcnt (chunks : List Chunk) (i : ℕ) : ℕ :=
  (chunks.filter (fun ch => decide (i < ch.qual.data.length))).length

/-- Arithmetic mean of `ord(char) - 33` over the quality character at
position `i` of every record whose quality string reaches position `i`. -/
def meanQualAt (chunks : List Chunk) (i : ℕ) : ℚ :=
  ((chunks.filter (fun ch => decide (i < ch.qual.data.length))).map
    (fun ch => ((ch.qual.data.getD i 'A').toNat : ℚ) - 33)).sum /
  ((chunks.filter (fun ch => decide (i < ch.qual.data.length))).length : ℚ)

/-- Number of records whose sequence character at position `i` uppercases to
the base `b`. -/
def bcount (chunks : List Chunk) (b : Char) (i : ℕ) : ℕ :=
  (chunks.filter (fun ch =>
    match ch.seq.data.get? i with
    | some c => c.toUpper == b
    | none => false)).length

/-- Number of records whose sequence character at position `i` uppercases to
one of A, C, G, T (ambiguous characters count for no base and are excluded
here as well). -/
def ctotal (chunks : List Chunk) (i : ℕ) : ℕ :=
  (chunks.filter (fun ch =>
    match ch.seq.data.get? i with
    | some c => decide (c.toUpper ∈ acgt)
    | none => false)).length

/-- The contribution of one sequence line to `base_counts[b][k]`: 1 exactly
when the line reaches position `k` and its character there uppercases to the
recognized base `b`. -/
def cscoreB (b : Char) (l : List Char) (k : ℕ) : ℕ :=
  match l.get? k with
  | some c => if c.toUpper ∈ acgt ∧ b = c.toUpper then 1 else 0
  | none => 0

/-- The contribution of one sequence line to `total_counts[k]`: 1 exactly
when the line reaches position `k` with a recognized base. -/
def cscoreT (l : List Char) (k : ℕ) : ℕ :=
  match l.get? k with
  | some c => if c.toUpper ∈ acgt then 1 else 0
  | none => 0

/-- Total `base_counts[b][i]` contribution over all records. -/
def csumB (b : Char) (chunks : List Chunk) (i : ℕ) : ℕ :=
  (chunks.map (fun ch => cscoreB b ch.seq.data i)).sum

/-- Total `total_counts[i]` contribution over all records. -/
def csumT (chunks : List Chunk) (i : ℕ) : ℕ :=
  (chunks.map (fun ch => cscoreT ch.seq.data i)).sum

/-- Sum of the four reported base percentages at one position. -/
def contentSumAt (ls : List String) (i : ℕ) : ℚ :=
  (((collect_content_data ls).2.lookup 'A').getD []).getD i 0 +
  (((collect_content_data ls).2.lookup 'C').getD []).getD i 0 +
  (((collect_content_data ls).2.lookup 'G').getD []).getD i 0 +
  (((collect_content_data ls).2.lookup 'T').getD []).getD i 0

/-- A raw four-line record as written to a file. -/
structure Rec4 where
  h : String
  s : String
  p : String
  q : String

/-- Lay records out as consecutive four-line groups. -/
def encodeRecs (rs : List Rec4) : List String :=
  (rs.map (fun r => [r.h, r.s, r.p, r.q])).flatten

/-- The chunk the reader yields for one complete record. -/
def recChunk (r : Rec4) : Chunk :=
  ⟨pstrip r.h, pstrip r.s, pstrip r.p, pstrip r.q⟩

/-- The cache fields of a `FastqReader` instance, plus a ghost counter of
how many times the file-reading generator was consumed (one full-file pass
per consumption). -/
structure FastqReaderS where
  filename : List String
  sequence_count : Option ℕ
  total_length : Option ℕ
  quality_data : Option (List ℕ × List ℚ)
  length_data : Option (List ℕ)
  content_data : Option (List ℕ × List (Char × List ℚ))
  passes : ℕ
deriving DecidableEq

/-- `FastqReader.__init__`: all caches empty. -/
def FastqReaderS.init (file : List String) : FastqReaderS :=
  ⟨file, none, none, none, none, none, 0⟩

/-- The method `calculate_statistics`: one pass filling both scalar caches. -/
def runStats (r : FastqReaderS) : FastqReaderS :=
  { r with
    sequence_count := some (calculate_statistics r.filename).1
    total_length := some (calculate_statistics r.filename).2
    passes := r.passes + 1 }

/-- The method `get_sequence_count`: compute on a cache miss, then return
the cached count. -/
def get_sequence_countR (r : FastqReaderS) : FastqReaderS × ℕ :=
  match r.sequence_count with
  | some c => (r, c)
  | none =>
    let r' := runStats r
    (r', r'.sequence_count.getD 0)

/-- The method `get_average_length`: compute on a cache miss, then return
`0` for a zero count and the exact quotient otherwise. -/
def get_average_lengthR (r : FastqReaderS) : FastqReaderS × ℚ :=
  let r' := match r.sequence_count with
    | some _ => r
    | none => runStats r
  (r', if r'.sequence_count.getD 0 = 0 then 0
       else (r'.total_length.getD 0 : ℚ) / (r'.sequence_count.getD 0 : ℚ))

/-- The method `collect_quality_data`: serve from cache when present;
otherwise run one pass, caching only on success (an exception escapes
before the cache assignment). -/
def collect_quality_dataR (r : FastqReaderS) :
    FastqReaderS × Option (List ℕ × List ℚ) :=
  match r.quality_data with
  | some d => (r, some d)
  | none =>
    match collect_quality_data r.filename with
    | some d => ({ r with quality_data := some d, passes := r.passes + 1 }, some d)
    | none => ({ r with passes := r.passes + 1 }, none)

/-- The method `collect_length_data`: serve from cache when present,
otherwise run one pass and cache. -/
def collect_length_dataR (r : FastqReaderS) : FastqReaderS × List ℕ :=
  match r.length_data with
  | some d => (r, d)
  | none =>
    ({ r with
       length_data := some (collect_length_data r.filename)
       passes := r.passes + 1 }, collect_length_data r.filename)

/-- The method `collect_content_data`: serve from cache when present,
otherwise run one pass and cache. -/
def collect_content_dataR (r : FastqReaderS) :
    FastqReaderS × (List ℕ × List (Char × List ℚ)) :=
  match r.content_data with
  | some d => (r, d)
  | none =>
    ({ r with
       content_data := some (collect_content_data r.filename)
       passes := r.passes + 1 }, collect_content_data r.filename)

/-- Engine part of `FastqAnalyzerGUI.full_analysis`: a fresh reader, then
count, average length, quality, length and content data in order; an
exception from the quality pass aborts the remaining calls (it is caught by
the surrounding `except`). -/
def full_analysis (file : List String) : FastqReaderS × Option (ℕ × ℚ) :=
  let p1 := get_sequence_countR (FastqReaderS.init file)
  let p2 := get_average_lengthR p1.1
  let p3 := collect_quality_dataR p2.1
  match p3.2 with
  | none => (p3.1, none)
  | some _ =>
    let p4 := collect_length_dataR p3.1
    let p5 := collect_content_dataR p4.1
    (p5.1, some (p1.2, p2.2))

/-- Call one query method twice in a row on a fresh reader, returning both
(state, value) results. -/
def twice {α : Type} (g : FastqReaderS → FastqReaderS × α) (file : List String) :
    (FastqReaderS × α) × (FastqReaderS × α) :=
  (g (FastqReaderS.init file), g (g (FastqReaderS.init file)).1)

/-- The two-record example file from the spec's concrete scenario. -/
def exFile : List String := ["@r1", "ACGT", "+", "!!!!", "@r2", "AC", "+", "##"]

/-- A file whose last record is truncated after its sequence line. -/
def truncFile : List String := ["@r1", "ACGT", "+", "!!!!", "@r2", "AC"]

/-- A single record whose sequence and quality lines have different lengths. -/
def mismatchFile : List String := ["@r1", "ACGT", "+", "!!"]

/-- A single well-formed record with empty sequence and quality lines. -/
def emptySeqFile : List String := ["@r1", "", "+", ""]

/-- `max_position` over the whole chunk list, as a standalone fold. -/
def qmax (chunks : List Chunk) : ℕ :=
  chunks.foldr (fun ch m =>
    if ch.qual.data = [] then m else max (ch.qual.data.length - 1) m) 0

lemma qscoreAt_nil (i : ℕ) : qscoreAt [] i = 0 := by simp [qscoreAt]

lemma qscoreAt_cons_succ (c : Char) (cs : List Char) (k : ℕ) :
    qscoreAt (c :: cs) (k + 1) = qscoreAt cs k := by simp [qscoreAt]

lemma qCharsFold_sums (l : List Char) : ∀ (n : ℕ) (s : QState) (i : ℕ),
    (qCharsFold s n l).sums i =
      s.sums i + (if i < n then 0 else qscoreAt l (i - n)) := by
  induction l with
  | nil => intro n s i; simp [qCharsFold, qscoreAt_nil]
  | cons c cs ih =>
    intro n s i
    rw [qCharsFold, ih]
    rcases Nat.lt_trichotomy i n with h | h | h
    · have h1 : i < n + 1 := Nat.lt_succ_of_lt h
      simp [qStepChar, Nat.ne_of_lt h, h, h1]
    · subst h
      have h1 : i < i + 1 := Nat.lt_succ_self i
      simp [qStepChar, h1, qscoreAt]
    · have h0 : ¬ i < n := Nat.not_lt_of_lt h
      have h1 : ¬ i < n + 1 := by omega
      have h2 : i ≠ n := Nat.ne_of_gt h
      have h3 : i - n = (i - (n + 1)) + 1 := by omega
      simp [qStepChar, h0, h1, h2, h3, qscoreAt_cons_succ]

lemma qCharsFold_counts (l : List Char) : ∀ (n : ℕ) (s : QState) (i : ℕ),
    (qCharsFold s n l).counts i =
      s.counts i + (if i < n then 0 else if i - n < l.length then 1 else 0) := by
  induction l with
  | nil => intro n s i; simp [qCharsFold]
  | cons c cs ih =>
    intro n s i
    rw [qCharsFold, ih]
    rcases Nat.lt_trichotomy i n with h | h | h
    · have h1 : i < n + 1 := Nat.lt_succ_of_lt h
      simp [qStepChar, Nat.ne_of_lt h, h, h1]
    · subst h
      have h1 : i < i + 1 := Nat.lt_succ_self i
      simp [qStepChar, h1]
    · have h0 : ¬ i < n := Nat.not_lt_of_lt h
      have h1 : ¬ i < n + 1 := by omega
      have h2 : i ≠ n := Nat.ne_of_gt h
      have h3 : (i - (n + 1) < cs.length) = (i - n < cs.length + 1) := by
        simp only [eq_iff_iff]; omega
      simp only [qStepChar, h0, h1, h2, if_false, if_neg h2, List.length_cons, h3]

lemma qCharsFold_max (l : List Char) : ∀ (n : ℕ) (s : QState),
    (qCharsFold s n l).maxPos =
      if l = [] then s.maxPos else max s.maxPos (n + l.length - 1) := by
  induction l with
  | nil => intro n s; simp [qCharsFold]
  | cons c cs ih =>
    intro n s
    rw [qCharsFold, ih]
    rcases eq_or_ne cs [] with h | h
    · subst h; simp [qStepChar]
    · have e1 : n + 1 + cs.length - 1 = n + cs.length := by
        have := List.length_pos.mpr h
        omega
      have e2 : n + (c :: cs).length - 1 = n + cs.length := by
        simp only [List.length_cons]; omega
      rw [if_neg h, if_neg (List.cons_ne_nil c cs), e1, e2]
      show max (max s.maxPos n) (n + cs.length) = max s.maxPos (n + cs.length)
      rw [Nat.max_assoc, Nat.max_eq_right (Nat.le_add_right n cs.length)]

lemma qFoldFrom_sums (chunks : List Chunk) : ∀ (s : QState) (i : ℕ),
    (chunks.foldl (fun s ch => qCharsFold s 0 ch.qual.data) s).sums i =
      s.sums i + qsum chunks i := by
  induction chunks with
  | nil => intro s i; simp [qsum]
  | cons ch t ih =>
    intro s i
    rw [List.foldl_cons, ih, qCharsFold_sums]
    simp only [Nat.not_lt_zero, if_false, Nat.sub_zero, qsum, List.map_cons,
      List.sum_cons]
    ring

lemma qFold_sums (chunks : List Chunk) (i : ℕ) :
    (qFold chunks).sums i = qsum chunks i := by
  have := qFoldFrom_sums chunks qInit i
  simpa [qFold, qInit] using this

lemma qcnt_cons (ch : Chunk) (t : List Chunk) (i : ℕ) :
    qcnt (ch :: t) i = (if i < ch.qual.data.length then 1 else 0) + qcnt t i := by
  simp only [qcnt, List.filter_cons]
  split <;> simp_all <;> omega

lemma qFoldFrom_counts (chunks : List Chunk) : ∀ (s : QState) (i : ℕ),
    (chunks.foldl (fun s ch => qCharsFold s 0 ch.qual.data) s).counts i =
      s.counts i + qcnt chunks i := by
  induction chunks with
  | nil => intro s i; simp [qcnt]
  | cons ch t ih =>
    intro s i
    rw [List.foldl_cons, ih, qCharsFold_counts, qcnt_cons]
    simp only [Nat.not_lt_zero, if_false, Nat.sub_zero]
    omega

lemma qFold_counts (chunks : List Chunk) (i : ℕ) :
    (qFold chunks).counts i = qcnt chunks i := by
  have := qFoldFrom_counts chunks qInit i
  simpa [qFold, qInit] using this

lemma qmax_cons (ch : Chunk) (t : List Chunk) :
    qmax (ch :: t) =
      if ch.qual.data = [] then qmax t
      else max (ch.qual.data.length - 1) (qmax t) := by
  simp [qmax]

lemma qFoldFrom_max (chunks : List Chunk) : ∀ (s : QState),
    (chunks.foldl (fun s ch => qCharsFold s 0 ch.qual.data) s).maxPos =
      max s.maxPos (qmax chunks) := by
  induction chunks with
  | nil => intro s; simp [qmax]
  | cons ch t ih =>
    intro s
    rw [List.foldl_cons, ih, qCharsFold_max, qmax_cons]
    rcases eq_or_ne ch.qual.data [] with h | h
    · rw [if_pos h, if_pos h]
    · rw [if_neg h, if_neg h, Nat.zero_add, Nat.max_assoc]

lemma qFold_max (chunks : List Chunk) :
    (qFold chunks).maxPos = qmax chunks := by
  have := qFoldFrom_max chunks qInit
  simpa [qFold, qInit] using this

lemma qmax_of_all_nil (chunks : List Chunk)
    (h : ∀ ch ∈ chunks, ch.qual.data = []) : qmax chunks = 0 := by
  induction chunks with
  | nil => simp [qmax]
  | cons ch t ih =>
    have h1 := h ch (by simp)
    have h2 : ∀ c ∈ t, c.qual.data = [] := fun c hc => h c (by simp [hc])
    rw [qmax_cons, if_pos h1]
    exact ih h2

lemma qmax_attained (chunks : List Chunk)
    (h : ∃ ch ∈ chunks, ch.qual.data ≠ []) :
    ∃ ch ∈ chunks, qmax chunks < ch.qual.data.length := by
  induction chunks with
  | nil => simp at h
  | cons ch t ih =>
    rcases eq_or_ne ch.qual.data [] with he | he
    · have h2 : ∃ c ∈ t, c.qual.data ≠ [] := by
        rcases h with ⟨c, hc, hcne⟩
        rcases List.mem_cons.mp hc with rfl | hct
        · exact absurd he hcne
        · exact ⟨c, hct, hcne⟩
      rcases ih h2 with ⟨c, hct, hlt⟩
      refine ⟨c, by simp [hct], ?_⟩
      rw [qmax_cons, if_pos he]
      exact hlt
    · have hpos := List.length_pos.mpr he
      have hq : qmax (ch :: t) = max (ch.qual.data.length - 1) (qmax t) := by
        rw [qmax_cons, if_neg he]
      rcases Nat.le_total (qmax t) (ch.qual.data.length - 1) with hle | hle
      · refine ⟨ch, by simp, ?_⟩
        rw [hq, Nat.max_eq_left hle]
        omega
      · rcases eq_or_ne (qmax t) 0 with hz | hz
        · refine ⟨ch, by simp, ?_⟩
          rw [hq, hz, Nat.max_zero]
          omega
        · have h2 : ∃ c ∈ t, c.qual.data ≠ [] := by
            by_contra hall
            push_neg at hall
            exact hz (qmax_of_all_nil t hall)
          rcases ih h2 with ⟨c, hct, hlt⟩
          refine ⟨c, by simp [hct], ?_⟩
          rw [hq, Nat.max_eq_right hle]
          exact hlt

lemma seqOptQ_some {f : ℕ → Option ℚ} : ∀ {l : List ℕ} {r : List ℚ},
    seqOptQ f l = some r →
    r.length = l.length ∧ ∀ k x, l.get? k = some x → r.get? k = f x := by
  intro l
  induction l with
  | nil =>
    intro r h
    simp only [seqOptQ] at h
    injection h with h
    subst h
    exact ⟨rfl, by intro k x hx; simp at hx⟩
  | cons i is ih =>
    intro r h
    simp only [seqOptQ] at h
    rcases hf : f i with _ | q
    · rw [hf] at h; exact absurd h (by simp)
    · rw [hf] at h
      rcases hs : seqOptQ f is with _ | qs
      · rw [hs] at h; exact absurd h (by simp)
      · rw [hs] at h
        injection h with h
        subst h
        rcases ih hs with ⟨hlen, hget⟩
        refine ⟨by simp [hlen], ?_⟩
        intro k x hx
        match k with
        | 0 =>
          simp only [List.get?] at hx
          injection hx with hx
          subst hx
          simpa using hf.symm
        | k + 1 =>
          simp only [List.get?] at hx ⊢
          exact hget k x hx

lemma seqOptQ_ne_none {f : ℕ → Option ℚ} : ∀ {l : List ℕ},
    (∀ i ∈ l, f i ≠ none) → seqOptQ f l ≠ none := by
  intro l
  induction l with
  | nil => intro _; simp [seqOptQ]
  | cons i is ih =>
    intro h
    simp only [seqOptQ]
    rcases hf : f i with _ | q
    · exact absurd hf (h i (by simp))
    · rcases hs : seqOptQ f is with _ | qs
      · exact absurd hs (ih (fun j hj => h j (by simp [hj])))
      · simp

lemma qsum_cons (ch : Chunk) (t : List Chunk) (i : ℕ) :
    qsum (ch :: t) i = qscoreAt ch.qual.data i + qsum t i := by
  simp [qsum]

lemma qsum_cast (chunks : List Chunk) (i : ℕ) :
    ((qsum chunks i : ℤ) : ℚ) =
      ((chunks.filter (fun ch => decide (i < ch.qual.data.length))).map
        (fun ch => ((ch.qual.data.getD i 'A').toNat : ℚ) - 33)).sum := by
  induction chunks with
  | nil => simp [qsum]
  | cons ch t ih =>
    have hc : ((qsum (ch :: t) i : ℤ) : ℚ) =
        ((qscoreAt ch.qual.data i : ℤ) : ℚ) + ((qsum t i : ℤ) : ℚ) := by
      rw [qsum_cons]; push_cast; ring
    rcases Nat.lt_or_ge i ch.qual.data.length with h | h
    · have hg : ch.qual.data.getD i 'A' = ch.qual.data.get ⟨i, h⟩ := by
        rw [List.getD_eq_getElem?_getD, List.getElem?_eq_getElem h]
        rfl
      have hsc : qscoreAt ch.qual.data i =
          ((ch.qual.data.get ⟨i, h⟩).toNat : ℤ) - 33 := by
        rw [qscoreAt, List.get?_eq_get h]
      have hfil : (ch :: t).filter (fun ch => decide (i < ch.qual.data.length))
          = ch :: t.filter (fun ch => decide (i < ch.qual.data.length)) := by
        rw [List.filter_cons, if_pos (by simpa using h)]
      rw [hc, ih, hfil, hsc]
      simp only [List.map_cons, List.sum_cons, hg]
      push_cast
      ring
    · have hsc : qscoreAt ch.qual.data i = 0 := by
        rw [qscoreAt, List.get?_eq_getElem?, List.getElem?_eq_none h]
      have hfil : (ch :: t).filter (fun ch => decide (i < ch.qual.data.length))
          = t.filter (fun ch => decide (i < ch.qual.data.length)) := by
        rw [List.filter_cons, if_neg (by simpa using Nat.not_lt_of_ge h)]
      rw [hc, ih, hfil, hsc]
      push_cast
      ring

/-- C3: for every input file on which the quality query succeeds and every
position `i` present in the quality profile, the reported value is the
arithmetic mean of `ord(char) - 33` over the quality character at position
`i` of every record whose quality string reaches position `i`; shorter
records contribute nothing. -/
theorem fastq_C3 (ls : List String) (pos : List ℕ) (avgs : List ℚ)
    (h : collect_quality_data ls = some (pos, avgs))
    (i : ℕ) (hi : i < avgs.length) :
    avgs.getD i 0 = meanQualAt (readFastqChunks ls) i := by
  simp only [collect_quality_data] at h
  rcases hE : seqOptQ (fun i =>
      if (qFold (readFastqChunks ls)).counts i = 0 then none
      else some (((qFold (readFastqChunks ls)).sums i : ℚ) /
        ((qFold (readFastqChunks ls)).counts i : ℚ)))
      (List.range ((qFold (readFastqChunks ls)).maxPos + 1)) with _ | avgs'
  · rw [hE] at h; exact absurd h (by simp)
  · rw [hE] at h
    injection h with h
    injection h with h1 h2
    subst h2
    rcases seqOptQ_some hE with ⟨hlen, hget⟩
    have hiR : i < (qFold (readFastqChunks ls)).maxPos + 1 := by
      rw [hlen, List.length_range] at hi
      exact hi
    have hri : (List.range ((qFold (readFastqChunks ls)).maxPos + 1)).get? i
        = some i := by
      rw [List.get?_eq_getElem?]
      simp [hiR]
    have hv := hget i i hri
    rcases hcz : (qFold (readFastqChunks ls)).counts i with _ | n
    · rw [hcz] at hv
      simp only [if_pos rfl] at hv
      have hns : avgs'.get? i ≠ none := by
        rw [List.get?_eq_getElem?]
        simp [List.getElem?_eq_getElem hi]
      exact absurd hv hns
    · rw [hcz] at hv
      simp only [Nat.succ_ne_zero, if_false] at hv
      have hgetD : avgs'.getD i 0 =
          (((qFold (readFastqChunks ls)).sums i : ℚ) / ((n + 1 : ℕ) : ℚ)) := by
        rw [List.getD_eq_getElem?_getD, ← List.get?_eq_getElem?, hv]
        rfl
      have hnum := qFold_sums (readFastqChunks ls) i
      have hden : ((readFastqChunks ls).filter
          (fun ch => decide (i < ch.qual.data.length))).length = n + 1 := by
        have hqc := qFold_counts (readFastqChunks ls) i
        rw [hcz] at hqc
        simpa [qcnt] using hqc.symm
      rw [hgetD]
      simp only [meanQualAt, ← qsum_cast, hden, hnum]

/-- C10: when at least one record has a non-empty quality string, every
position from 0 up to `max_position` has `quality_counts[i] >= 1`, so every
division in the averaging comprehension is well defined and
`collect_quality_data` does not raise. -/
theorem fastq_C10 (ls : List String)
    (hne : ∃ ch ∈ readFastqChunks ls, ch.qual.data ≠ []) :
    (∀ i ≤ (qFold (readFastqChunks ls)).maxPos,
      1 ≤ (qFold (readFastqChunks ls)).counts i)
    ∧ collect_quality_data ls ≠ none := by
  have hcnt : ∀ i ≤ (qFold (readFastqChunks ls)).maxPos,
      1 ≤ (qFold (readFastqChunks ls)).counts i := by
    intro i hile
    rw [qFold_max] at hile
    rcases qmax_attained _ hne with ⟨ch, hmem, hlt⟩
    have hireach : i < ch.qual.data.length := Nat.lt_of_le_of_lt hile hlt
    rw [qFold_counts]
    have hmemf : ch ∈ (readFastqChunks ls).filter
        (fun ch => decide (i < ch.qual.data.length)) :=
      List.mem_filter.mpr ⟨hmem, by simpa using hireach⟩
    have : 0 < ((readFastqChunks ls).filter
        (fun ch => decide (i < ch.qual.data.length))).length :=
      List.length_pos.mpr (List.ne_nil_of_mem hmemf)
    simpa [qcnt] using this
  refine ⟨hcnt, ?_⟩
  simp only [collect_quality_data]
  rcases hE : seqOptQ (fun i =>
      if (qFold (readFastqChunks ls)).counts i = 0 then none
      else some (((qFold (readFastqChunks ls)).sums i : ℚ) /
        ((qFold (readFastqChunks ls)).counts i : ℚ)))
      (List.range ((qFold (readFastqChunks ls)).maxPos + 1)) with _ | avgs
  · exfalso
    refine seqOptQ_ne_none ?_ hE
    intro i hii
    have hile : i ≤ (qFold (readFastqChunks ls)).maxPos := by
      have := List.mem_range.mp hii
      omega
    have := hcnt i hile
    intro hcontra
    rw [if_neg (by omega)] at hcontra
    exact absurd hcontra (by simp)
  · simp

/-- C10 witness: the two-record example file instantiates the theorem. -/
theorem fastq_C10_witness :
    1 ≤ (qFold (readFastqChunks exFile)).counts 3
    ∧ collect_quality_data exFile ≠ none :=
  ⟨(fastq_C10 exFile (by with_unfolding_all decide)).1 3
    (by with_unfolding_all decide),
   (fastq_C10 exFile (by with_unfolding_all decide)).2⟩

/-- C3 witness: the spec's concrete scenario, position 0 averaging scores
0 and 2 to 1. -/
theorem fastq_C3_witness :
    ([1, 1, 0, 0] : List ℚ).getD 0 0 = meanQualAt (readFastqChunks exFile) 0 :=
  fastq_C3 exFile [1, 2, 3, 4] [1, 1, 0, 0]
    (by with_unfolding_all decide) 0 (by decide)

lemma cscoreB_nil (b : Char) (k : ℕ) : cscoreB b [] k = 0 := by simp [cscoreB]

lemma cscoreB_cons_succ (b c : Char) (cs : List Char) (k : ℕ) :
    cscoreB b (c :: cs) (k + 1) = cscoreB b cs k := by simp [cscoreB]

lemma cscoreT_nil (k : ℕ) : cscoreT [] k = 0 := by simp [cscoreT]

lemma cscoreT_cons_succ (c : Char) (cs : List Char) (k : ℕ) :
    cscoreT (c :: cs) (k + 1) = cscoreT cs k := by simp [cscoreT]

lemma cCharsFold_counts (l : List Char) : ∀ (n : ℕ) (s : CState) (b : Char) (i : ℕ),
    (cCharsFold s n l).counts b i =
      s.counts b i + (if i < n then 0 else cscoreB b l (i - n)) := by
  induction l with
  | nil => intro n s b i; simp [cCharsFold, cscoreB_nil]
  | cons c cs ih =>
    intro n s b i
    rw [cCharsFold, ih]
    by_cases hmem : c.toUpper ∈ acgt
    · rcases Nat.lt_trichotomy i n with h | h | h
      · have h1 : i < n + 1 := by omega
        have h2 : i ≠ n := by omega
        simp [cStepChar, hmem, h, h1, h2]
      · subst h
        have h1 : i < i + 1 := Nat.lt_succ_self i
        by_cases hb : b = c.toUpper
        · simp [cStepChar, hmem, h1, hb, cscoreB]
        · simp [cStepChar, hmem, h1, hb, cscoreB]
      · have h0 : ¬ i < n := by omega
        have h1 : ¬ i < n + 1 := by omega
        have h2 : i ≠ n := by omega
        have h3 : i - n = (i - (n + 1)) + 1 := by omega
        simp only [cStepChar, if_pos hmem, h0, h1, if_false, h2, and_false,
          if_neg (by simp [h2] : ¬ (b = c.toUpper ∧ i = n)), h3,
          cscoreB_cons_succ]
    · rcases Nat.lt_trichotomy i n with h | h | h
      · have h1 : i < n + 1 := by omega
        simp [cStepChar, hmem, h, h1]
      · subst h
        have h1 : i < i + 1 := Nat.lt_succ_self i
        simp [cStepChar, hmem, h1, cscoreB]
      · have h0 : ¬ i < n := by omega
        have h1 : ¬ i < n + 1 := by omega
        have h3 : i - n = (i - (n + 1)) + 1 := by omega
        simp only [cStepChar, if_neg hmem, h0, h1, if_false, h3,
          cscoreB_cons_succ]

lemma cCharsFold_total (l : List Char) : ∀ (n : ℕ) (s : CState) (i : ℕ),
    (cCharsFold s n l).total i =
      s.total i + (if i < n then 0 else cscoreT l (i - n)) := by
  induction l with
  | nil => intro n s i; simp [cCharsFold, cscoreT_nil]
  | cons c cs ih =>
    intro n s i
    rw [cCharsFold, ih]
    by_cases hmem : c.toUpper ∈ acgt
    · rcases Nat.lt_trichotomy i n with h | h | h
      · have h1 : i < n + 1 := by omega
        have h2 : i ≠ n := by omega
        simp [cStepChar, hmem, h, h1, h2]
      · subst h
        have h1 : i < i + 1 := Nat.lt_succ_self i
        simp [cStepChar, hmem, h1, cscoreT]
      · have h0 : ¬ i < n := by omega
        have h1 : ¬ i < n + 1 := by omega
        have h2 : i ≠ n := by omega
        have h3 : i - n = (i - (n + 1)) + 1 := by omega
        simp only [cStepChar, if_pos hmem, h0, h1, if_false, if_neg h2, h3,
          cscoreT_cons_succ]
    · rcases Nat.lt_trichotomy i n with h | h | h
      · have h1 : i < n + 1 := by omega
        simp [cStepChar, hmem, h, h1]
      · subst h
        have h1 : i < i + 1 := Nat.lt_succ_self i
        simp [cStepChar, hmem, h1, cscoreT]
      · have h0 : ¬ i < n := by omega
        have h1 : ¬ i < n + 1 := by omega
        have h3 : i - n = (i - (n + 1)) + 1 := by omega
        simp only [cStepChar, if_neg hmem, h0, h1, if_false, h3,
          cscoreT_cons_succ]

lemma cFoldFrom_counts (chunks : List Chunk) : ∀ (s : CState) (b : Char) (i : ℕ),
    (chunks.foldl (fun s ch => cCharsFold s 0 ch.seq.data) s).counts b i =
      s.counts b i + csumB b chunks i := by
  induction chunks with
  | nil => intro s b i; simp [csumB]
  | cons ch t ih =>
    intro s b i
    rw [List.foldl_cons, ih, cCharsFold_counts]
    simp only [Nat.not_lt_zero, if_false, Nat.sub_zero, csumB, List.map_cons,
      List.sum_cons]
    omega

lemma cFold_counts (chunks : List Chunk) (b : Char) (i : ℕ) :
    (cFold chunks).counts b i = csumB b chunks i := by
  have := cFoldFrom_counts chunks cInit b i
  simpa [cFold, cInit] using this

lemma cFoldFrom_total (chunks : List Chunk) : ∀ (s : CState) (i : ℕ),
    (chunks.foldl (fun s ch => cCharsFold s 0 ch.seq.data) s).total i =
      s.total i + csumT chunks i := by
  induction chunks with
  | nil => intro s i; simp [csumT]
  | cons ch t ih =>
    intro s i
    rw [List.foldl_cons, ih, cCharsFold_total]
    simp only [Nat.not_lt_zero, if_false, Nat.sub_zero, csumT, List.map_cons,
      List.sum_cons]
    omega

lemma cFold_total (chunks : List Chunk) (i : ℕ) :
    (cFold chunks).total i = csumT chunks i := by
  have := cFoldFrom_total chunks cInit i
  simpa [cFold, cInit] using this

lemma csumB_eq_bcount (b : Char) (hb : b ∈ acgt) (chunks : List Chunk) (i : ℕ) :
    csumB b chunks i = bcount chunks b i := by
  induction chunks with
  | nil => simp [csumB, bcount]
  | cons ch t ih =>
    have hstep : csumB b (ch :: t) i = cscoreB b ch.seq.data i + csumB b t i := by
      simp [csumB]
    rw [hstep, ih]
    rcases hget : ch.seq.data[i]? with _ | c
    · have h1 : cscoreB b ch.seq.data i = 0 := by simp [cscoreB, hget]
      have h2 : bcount (ch :: t) b i = bcount t b i := by
        simp [bcount, List.filter_cons, hget]
      rw [h1, h2, Nat.zero_add]
    · by_cases heq : c.toUpper = b
      · have h1 : cscoreB b ch.seq.data i = 1 := by
          have hmem : c.toUpper ∈ acgt := heq ▸ hb
          simp [cscoreB, hget, heq, hmem, hb]
        have h2 : bcount (ch :: t) b i = bcount t b i + 1 := by
          simp [bcount, List.filter_cons, hget, heq]
        rw [h1, h2]
        omega
      · have hne : ¬ (b = c.toUpper) := fun h => heq h.symm
        have h1 : cscoreB b ch.seq.data i = 0 := by
          simp [cscoreB, hget, hne]
        have h2 : bcount (ch :: t) b i = bcount t b i := by
          simp [bcount, List.filter_cons, hget, heq]
        rw [h1, h2, Nat.zero_add]

lemma csumT_eq_ctotal (chunks : List Chunk) (i : ℕ) :
    csumT chunks i = ctotal chunks i := by
  induction chunks with
  | nil => simp [csumT, ctotal]
  | cons ch t ih =>
    have hstep : csumT (ch :: t) i = cscoreT ch.seq.data i + csumT t i := by
      simp [csumT]
    rw [hstep, ih]
    rcases hget : ch.seq.data[i]? with _ | c
    · have h1 : cscoreT ch.seq.data i = 0 := by simp [cscoreT, hget]
      have h2 : ctotal (ch :: t) i = ctotal t i := by
        simp [ctotal, List.filter_cons, hget]
      rw [h1, h2, Nat.zero_add]
    · by_cases hmem : c.toUpper ∈ acgt
      · have h1 : cscoreT ch.seq.data i = 1 := by simp [cscoreT, hget, hmem]
        have h2 : ctotal (ch :: t) i = ctotal t i + 1 := by
          simp [ctotal, List.filter_cons, hget, hmem]
        rw [h1, h2]
        omega
      · have h1 : cscoreT ch.seq.data i = 0 := by simp [cscoreT, hget, hmem]
        have h2 : ctotal (ch :: t) i = ctotal t i := by
          simp [ctotal, List.filter_cons, hget, hmem]
        rw [h1, h2, Nat.zero_add]

lemma cscore_four (l : List Char) (i : ℕ) :
    cscoreB 'A' l i + cscoreB 'C' l i + cscoreB 'G' l i + cscoreB 'T' l i
      = cscoreT l i := by
  rcases hget : l[i]? with _ | c
  · simp [cscoreB, cscoreT, hget]
  · by_cases hmem : c.toUpper ∈ acgt
    · have hm : c.toUpper = 'A' ∨ c.toUpper = 'C' ∨ c.toUpper = 'G'
          ∨ c.toUpper = 'T' := by simpa [acgt] using hmem
      rcases hm with h | h | h | h <;>
        simp only [cscoreB, cscoreT, List.get?_eq_getElem?, hget, h] <;> decide
    · simp [cscoreB, cscoreT, hget, hmem]

lemma csum_four (chunks : List Chunk) (i : ℕ) :
    csumB 'A' chunks i + csumB 'C' chunks i + csumB 'G' chunks i
      + csumB 'T' chunks i = csumT chunks i := by
  induction chunks with
  | nil => simp [csumB, csumT]
  | cons ch t ih =>
    have h4 := cscore_four ch.seq.data i
    simp only [csumB, csumT, List.map_cons, List.sum_cons] at ih ⊢
    omega

lemma pctList_getD (s : CState) (b : Char) (i : ℕ) (hi : i < s.maxPos + 1) :
    (pctList s b).getD i 0 =
      if 0 < s.total i then (s.counts b i : ℚ) / (s.total i : ℚ) * 100 else 0 := by
  rw [pctList, List.getD_eq_getElem?_getD, List.getElem?_map]
  simp [List.getElem?_range, hi]

lemma content_lookup (ls : List String) :
    (collect_content_data ls).2.lookup 'A'
        = some (pctList (cFold (readFastqChunks ls)) 'A')
    ∧ (collect_content_data ls).2.lookup 'C'
        = some (pctList (cFold (readFastqChunks ls)) 'C')
    ∧ (collect_content_data ls).2.lookup 'G'
        = some (pctList (cFold (readFastqChunks ls)) 'G')
    ∧ (collect_content_data ls).2.lookup 'T'
        = some (pctList (cFold (readFastqChunks ls)) 'T') :=
  ⟨rfl, rfl, rfl, rfl⟩

/-- C4: for every input file, each entry of the reported content profile is
`base_counts[base][i] / total_counts_per_position[i] * 100` (0 when the
denominator is 0), where both counters count characters after uppercasing
and keep only A, C, G, T (ambiguous characters appear in neither counter). -/
theorem fastq_C4 (ls : List String) (b : Char) (ps : List ℚ)
    (hm : (b, ps) ∈ (collect_content_data ls).2) (i : ℕ) (hi : i < ps.length) :
    ps.getD i 0 = if ctotal (readFastqChunks ls) i = 0 then 0
      else (bcount (readFastqChunks ls) b i : ℚ)
        / (ctotal (readFastqChunks ls) i : ℚ) * 100 := by
  simp only [collect_content_data] at hm
  rcases List.mem_map.mp hm with ⟨a, ha, hab⟩
  injection hab with hab1 hab2
  subst a
  subst hab2
  have hiR : i < (cFold (readFastqChunks ls)).maxPos + 1 := by
    simpa [pctList] using hi
  rw [pctList_getD _ _ _ hiR, cFold_counts, cFold_total,
    csumB_eq_bcount b ha, csumT_eq_ctotal]
  rcases Nat.eq_zero_or_pos (ctotal (readFastqChunks ls) i) with h0 | h0
  · rw [h0]
    simp
  · rw [if_pos h0, if_neg (by omega)]

/-- C4 witness: base A at position 0 of the spec's two-record example has
100 percent content. -/
theorem fastq_C4_witness :
    ([100, 0, 0, 0] : List ℚ).getD 0 0 =
      if ctotal (readFastqChunks exFile) 0 = 0 then 0
      else (bcount (readFastqChunks exFile) 'A' 0 : ℚ)
        / (ctotal (readFastqChunks exFile) 0 : ℚ) * 100 :=
  fastq_C4 exFile 'A' [100, 0, 0, 0] (by with_unfolding_all decide) 0 (by decide)

lemma contentSumAt_cases (ls : List String) (i : ℕ)
    (hi : i < (cFold (readFastqChunks ls)).maxPos + 1) :
    contentSumAt ls i =
      if 0 < (cFold (readFastqChunks ls)).total i then 100 else 0 := by
  rcases content_lookup ls with ⟨hA, hC, hG, hT⟩
  rw [contentSumAt, hA, hC, hG, hT]
  simp only [Option.getD_some]
  rw [pctList_getD _ _ _ hi, pctList_getD _ _ _ hi, pctList_getD _ _ _ hi,
    pctList_getD _ _ _ hi]
  rcases Nat.eq_zero_or_pos ((cFold (readFastqChunks ls)).total i) with h0 | h0
  · rw [h0]
    norm_num
  · rw [if_pos h0, if_pos h0, if_pos h0, if_pos h0, if_pos h0]
    have hsum : (cFold (readFastqChunks ls)).counts 'A' i
        + (cFold (readFastqChunks ls)).counts 'C' i
        + (cFold (readFastqChunks ls)).counts 'G' i
        + (cFold (readFastqChunks ls)).counts 'T' i
        = (cFold (readFastqChunks ls)).total i := by
      rw [cFold_counts, cFold_counts, cFold_counts, cFold_counts, cFold_total]
      exact csum_four _ i
    have hT : ((cFold (readFastqChunks ls)).total i : ℚ) ≠ 0 := by
      exact_mod_cast Nat.pos_iff_ne_zero.mp h0
    have hcast : ((cFold (readFastqChunks ls)).counts 'A' i : ℚ)
        + ((cFold (readFastqChunks ls)).counts 'C' i : ℚ)
        + ((cFold (readFastqChunks ls)).counts 'G' i : ℚ)
        + ((cFold (readFastqChunks ls)).counts 'T' i : ℚ)
        = ((cFold (readFastqChunks ls)).total i : ℚ) := by
      exact_mod_cast hsum
    field_simp
    linarith [hcast]

/-- C5 as amended: at every reported position the four percentages sum to at
most 100, with equality whenever at least one record reaches the position
and no ambiguous (non-ACGT) base occurs there in any record reaching it. -/
theorem fastq_C5_amended (ls : List String) (i : ℕ)
    (hi : i < (((collect_content_data ls).2.lookup 'A').getD []).length) :
    contentSumAt ls i ≤ 100
    ∧ ((∃ ch ∈ readFastqChunks ls, i < ch.seq.data.length)
        ∧ (∀ ch ∈ readFastqChunks ls, ∀ c, ch.seq.data.get? i = some c →
            c.toUpper ∈ acgt) →
        contentSumAt ls i = 100) := by
  have hiR : i < (cFold (readFastqChunks ls)).maxPos + 1 := by
    rcases content_lookup ls with ⟨hA, _, _, _⟩
    rw [hA] at hi
    simpa [pctList] using hi
  rw [contentSumAt_cases ls i hiR]
  constructor
  · split <;> norm_num
  · rintro ⟨⟨ch, hmem, hreach⟩, hamb⟩
    have hc : ch.seq.data.get? i = some (ch.seq.data.get ⟨i, hreach⟩) :=
      List.get?_eq_get hreach
    have hmemA : (ch.seq.data.get ⟨i, hreach⟩).toUpper ∈ acgt :=
      hamb ch hmem _ hc
    have hpos : 0 < ctotal (readFastqChunks ls) i := by
      have hfm : ch ∈ (readFastqChunks ls).filter (fun ch =>
          match ch.seq.data.get? i with
          | some c => decide (c.toUpper ∈ acgt)
          | none => false) := by
        refine List.mem_filter.mpr ⟨hmem, ?_⟩
        rw [hc]
        simpa using hmemA
      exact List.length_pos.mpr (List.ne_nil_of_mem hfm)
    rw [if_pos (by rw [cFold_total, csumT_eq_ctotal]; exact hpos)]

/-- C5 counterexample: a well-formed single-record file with empty sequence
reports position 0 in the content profile; no record reaches position 0 (so
no ambiguous base occurs there), yet the four percentages sum to 0. -/
theorem fastq_C5_counterexample :
    readFastqChunks emptySeqFile = [⟨"@r1", "", "+", ""⟩]
    ∧ (Chunk.mk "@r1" "" "+" "").seq.data.get? 0 = none
    ∧ 0 < (((collect_content_data emptySeqFile).2.lookup 'A').getD []).length
    ∧ contentSumAt emptySeqFile 0 = 0
    ∧ contentSumAt emptySeqFile 0 ≠ 100 := by
  with_unfolding_all decide

/-- C5 witness: at position 0 of the spec's example file the percentages sum
to exactly 100. -/
theorem fastq_C5_witness :
    contentSumAt exFile 0 ≤ 100 ∧ contentSumAt exFile 0 = 100 :=
  ⟨(fastq_C5_amended exFile 0 (by with_unfolding_all decide)).1,
   (fastq_C5_amended exFile 0 (by with_unfolding_all decide)).2
     (by with_unfolding_all decide)⟩

lemma calc_foldl (l : List Chunk) : ∀ (a b : ℕ),
    l.foldl (fun p ch => (p.1 + 1, p.2 + ch.seq.data.length)) (a, b)
      = (a + l.length, b + (l.map (fun ch => ch.seq.data.length)).sum) := by
  induction l with
  | nil => intro a b; simp
  | cons ch t ih =>
    intro a b
    rw [List.foldl_cons, ih]
    simp only [List.map_cons, List.sum_cons, List.length_cons, Prod.mk.injEq]
    omega

lemma calculate_statistics_eq (ls : List String) :
    calculate_statistics ls = ((readFastqChunks ls).length,
      ((readFastqChunks ls).map (fun ch => ch.seq.data.length)).sum) := by
  rw [calculate_statistics, calc_foldl]
  simp

/-- C6: the average length is `0` for a zero count and the exact quotient
`total_length / sequence_count` otherwise, and the entries of the length
distribution sum to exactly that `total_length`. -/
theorem fastq_C6 (ls : List String) :
    ((calculate_statistics ls).1 = 0 → get_average_length ls = 0)
    ∧ ((calculate_statistics ls).1 ≠ 0 →
        get_average_length ls * ((calculate_statistics ls).1 : ℚ)
          = ((calculate_statistics ls).2 : ℚ))
    ∧ (collect_length_data ls).sum = (calculate_statistics ls).2 := by
  refine ⟨?_, ?_, ?_⟩
  · intro h
    rw [get_average_length, if_pos h]
  · intro h
    rw [get_average_length, if_neg h]
    have hne : ((calculate_statistics ls).1 : ℚ) ≠ 0 := Nat.cast_ne_zero.mpr h
    field_simp
  · rw [collect_length_data, calculate_statistics_eq]

/-- C6 witness: on the spec's example file the average length 3 times the
count 2 recovers the total length 6, which matches the distribution sum. -/
theorem fastq_C6_witness :
    get_average_length exFile * ((calculate_statistics exFile).1 : ℚ)
      = ((calculate_statistics exFile).2 : ℚ)
    ∧ (collect_length_data exFile).sum = (calculate_statistics exFile).2 :=
  ⟨(fastq_C6 exFile).2.1 (by decide), (fastq_C6 exFile).2.2⟩

lemma readFastqChunks_encode (rs : List Rec4) :
    ∀ (tail : List String), (∀ r ∈ rs, pstrip r.h ≠ "") →
      readFastqChunks (encodeRecs rs ++ tail)
        = rs.map recChunk ++ readFastqChunks tail := by
  induction rs with
  | nil => intro tail _; simp [encodeRecs]
  | cons r rs ih =>
    intro tail h
    have hh : pstrip r.h ≠ "" := h r (by simp)
    have henc : encodeRecs (r :: rs) ++ tail
        = r.h :: r.s :: r.p :: r.q :: (encodeRecs rs ++ tail) := by
      simp [encodeRecs]
    rw [henc]
    simp only [readFastqChunks, if_neg hh]
    rw [ih tail (fun x hx => h x (by simp [hx]))]
    simp [recChunk]

/-- C1 as amended: a truncated final record (non-empty header, then the file
ends) is not detected and raises no format error: the missing lines are read
back as empty strings, the truncated record is yielded and counted, and the
record count, total length and length distribution are returned as a normal
result that includes the truncated record. -/
theorem fastq_C1_amended (rs : List Rec4) (hrs : ∀ r ∈ rs, pstrip r.h ≠ "")
    (hdr sq : String) (hh : pstrip hdr ≠ "") :
    readFastqChunks (encodeRecs rs ++ [hdr, sq])
      = rs.map recChunk ++ [⟨pstrip hdr, pstrip sq, "", ""⟩]
    ∧ calculate_statistics (encodeRecs rs ++ [hdr, sq])
      = (rs.length + 1,
         (rs.map (fun r => (pstrip r.s).data.length)).sum
           + (pstrip sq).data.length)
    ∧ collect_length_data (encodeRecs rs ++ [hdr, sq])
      = rs.map (fun r => (pstrip r.s).data.length)
          ++ [(pstrip sq).data.length] := by
  have hre := readFastqChunks_encode rs [hdr, sq] hrs
  have htail : readFastqChunks [hdr, sq] = [⟨pstrip hdr, pstrip sq, "", ""⟩] := by
    simp only [readFastqChunks, if_neg hh]
  rw [htail] at hre
  have hcomp : ((fun ch : Chunk => ch.seq.length) ∘ recChunk)
      = fun r : Rec4 => (pstrip r.s).length := by
    funext x
    simp [recChunk]
  refine ⟨hre, ?_, ?_⟩
  · rw [calculate_statistics_eq, hre]
    simp [List.map_map, hcomp]
  · rw [collect_length_data, hre]
    simp [List.map_append, List.map_map, hcomp]

/-- C1 counterexample: on a file whose second record is truncated after its
sequence line, every statistic still returns a value, and the returned
snapshot even includes the truncated record (count 2, total length 6). -/
theorem fastq_C1_counterexample :
    readFastqChunks truncFile
      = [⟨"@r1", "ACGT", "+", "!!!!"⟩, ⟨"@r2", "AC", "", ""⟩]
    ∧ calculate_statistics truncFile = (2, 6)
    ∧ collect_length_data truncFile = [4, 2]
    ∧ collect_quality_data truncFile = some ([1, 2, 3, 4], [0, 0, 0, 0]) := by
  with_unfolding_all decide

/-- C1 witness: the amended statement instantiated at one complete record
followed by a truncated one. -/
theorem fastq_C1_witness :
    calculate_statistics (encodeRecs [Rec4.mk "@r1" "ACGT" "+" "!!!!"]
        ++ ["@r2", "AC"])
      = ([Rec4.mk "@r1" "ACGT" "+" "!!!!"].length + 1,
         ([Rec4.mk "@r1" "ACGT" "+" "!!!!"].map
            (fun r => (pstrip r.s).data.length)).sum
           + (pstrip "AC").data.length)
    ∧ calculate_statistics truncFile = (2, 6) :=
  ⟨(fastq_C1_amended [Rec4.mk "@r1" "ACGT" "+" "!!!!"] (by decide)
      "@r2" "AC" (by decide)).2.1,
   by decide⟩

/-- C9 as amended: the reader never compares sequence and quality lengths; a
record with mismatched lengths is yielded unvalidated and its record count,
total length and length distribution are silently computed from its sequence
line as if the record were well formed. -/
theorem fastq_C9_amended (r : Rec4) (hh : pstrip r.h ≠ "")
    (hm : (pstrip r.s).data.length ≠ (pstrip r.q).data.length) :
    readFastqChunks (encodeRecs [r]) = [recChunk r]
    ∧ calculate_statistics (encodeRecs [r]) = (1, (pstrip r.s).data.length)
    ∧ collect_length_data (encodeRecs [r]) = [(pstrip r.s).data.length] := by
  have hre := readFastqChunks_encode [r] []
    (by intro x hx; rcases List.mem_singleton.mp hx with rfl; exact hh)
  rw [List.append_nil] at hre
  have hre2 : readFastqChunks (encodeRecs [r]) = [recChunk r] := by
    simpa [readFastqChunks] using hre
  refine ⟨hre2, ?_, ?_⟩
  · rw [calculate_statistics_eq, hre2]
    simp [recChunk]
  · rw [collect_length_data, hre2]
    simp [recChunk]

/-- C9 counterexample: a record with a 4-character sequence and 2-character
quality is aggregated without any error: statistics, lengths and the quality
profile are all produced. -/
theorem fastq_C9_counterexample :
    readFastqChunks mismatchFile = [⟨"@r1", "ACGT", "+", "!!"⟩]
    ∧ ("ACGT" : String).data.length ≠ ("!!" : String).data.length
    ∧ calculate_statistics mismatchFile = (1, 4)
    ∧ collect_length_data mismatchFile = [4]
    ∧ collect_quality_data mismatchFile = some ([1, 2], [0, 0]) := by
  with_unfolding_all decide

/-- C9 witness: the amended statement instantiated at the mismatched record. -/
theorem fastq_C9_witness :
    readFastqChunks (encodeRecs [Rec4.mk "@r1" "ACGT" "+" "!!"])
      = [recChunk (Rec4.mk "@r1" "ACGT" "+" "!!")]
    ∧ calculate_statistics (encodeRecs [Rec4.mk "@r1" "ACGT" "+" "!!"])
      = (1, (pstrip "ACGT").data.length) :=
  ⟨(fastq_C9_amended (Rec4.mk "@r1" "ACGT" "+" "!!") (by decide) (by decide)).1,
   (fastq_C9_amended (Rec4.mk "@r1" "ACGT" "+" "!!") (by decide) (by decide)).2.1⟩

/-- C2: evaluation at the failing input.  A zero-record file gives count 0,
average length 0, an empty length distribution, but the quality query raises
`ZeroDivisionError` (modelled `none`) because `quality_counts[0] = 0`, and
the content profile is a one-position all-zero table rather than an empty
mapping. -/
theorem fastq_C2_bug :
    calculate_statistics ([] : List String) = (0, 0)
    ∧ get_average_length ([] : List String) = 0
    ∧ collect_length_data ([] : List String) = []
    ∧ collect_quality_data ([] : List String) = none
    ∧ (collect_content_data ([] : List String)).2
        = [('A', [0]), ('C', [0]), ('G', [0]), ('T', [0])] := by
  with_unfolding_all decide

/-- C7 as amended: when no statistic raises, a full analysis consumes the
record stream four times — one pass for count and total length, then one
pass each for the quality, length and content data — while filling every
cache; it does not fold the four result sets in a single traversal. -/
theorem fastq_C7_amended (file : List String)
    (h : (full_analysis file).2 ≠ none) :
    (full_analysis file).1.passes = 4
    ∧ (full_analysis file).1.sequence_count ≠ none
    ∧ (full_analysis file).1.quality_data ≠ none
    ∧ (full_analysis file).1.length_data ≠ none
    ∧ (full_analysis file).1.content_data ≠ none := by
  rcases hq : collect_quality_data file with _ | d
  · exfalso
    apply h
    simp [full_analysis, get_sequence_countR, FastqReaderS.init, runStats,
      get_average_lengthR, collect_quality_dataR, hq]
  · simp [full_analysis, get_sequence_countR, FastqReaderS.init, runStats,
      get_average_lengthR, collect_quality_dataR, collect_length_dataR,
      collect_content_dataR, hq]

/-- C7 counterexample: a successful full analysis of the example file makes
4 generator passes, not 1. -/
theorem fastq_C7_counterexample :
    (full_analysis exFile).1.passes = 4
    ∧ ¬ (full_analysis exFile).1.passes = 1
    ∧ (full_analysis exFile).2 ≠ none := by
  with_unfolding_all decide

/-- C7 witness: the amended statement instantiated at the example file. -/
theorem fastq_C7_witness :
    (full_analysis exFile).1.passes = 4
    ∧ (full_analysis exFile).1.quality_data ≠ none :=
  ⟨(fastq_C7_amended exFile (by with_unfolding_all decide)).1,
   (fastq_C7_amended exFile (by with_unfolding_all decide)).2.2.1⟩

/-- C8 as amended: on a fresh reader every query returns an identical value
when called twice; the four queries that cannot raise serve the second call
from the cache, so the two calls make exactly one pass; a quality query is
cached only on success, so only a successful quality computation keeps the
pass count at one. -/
theorem fastq_C8_amended (file : List String) :
    ((twice get_sequence_countR file).2.2 = (twice get_sequence_countR file).1.2
      ∧ (twice get_sequence_countR file).2.1.passes = 1)
    ∧ ((twice get_average_lengthR file).2.2 = (twice get_average_lengthR file).1.2
      ∧ (twice get_average_lengthR file).2.1.passes = 1)
    ∧ ((twice collect_length_dataR file).2.2 = (twice collect_length_dataR file).1.2
      ∧ (twice collect_length_dataR file).2.1.passes = 1)
    ∧ ((twice collect_content_dataR file).2.2 = (twice collect_content_dataR file).1.2
      ∧ (twice collect_content_dataR file).2.1.passes = 1)
    ∧ ((twice collect_quality_dataR file).2.2 = (twice collect_quality_dataR file).1.2
      ∧ (collect_quality_data file ≠ none →
          (twice collect_quality_dataR file).2.1.passes = 1)) := by
  refine ⟨⟨?_, ?_⟩, ⟨?_, ?_⟩, ⟨?_, ?_⟩, ⟨?_, ?_⟩, ⟨?_, ?_⟩⟩
  · simp [twice, get_sequence_countR, FastqReaderS.init, runStats]
  · simp [twice, get_sequence_countR, FastqReaderS.init, runStats]
  · simp [twice, get_average_lengthR, FastqReaderS.init, runStats]
  · simp [twice, get_average_lengthR, FastqReaderS.init, runStats]
  · simp [twice, collect_length_dataR, FastqReaderS.init]
  · simp [twice, collect_length_dataR, FastqReaderS.init]
  · simp [twice, collect_content_dataR, FastqReaderS.init]
  · simp [twice, collect_content_dataR, FastqReaderS.init]
  · rcases hq : collect_quality_data file with _ | d <;>
      simp [twice, collect_quality_dataR, FastqReaderS.init, hq]
  · intro h
    rcases hq : collect_quality_data file with _ | d
    · exact absurd hq h
    · simp [twice, collect_quality_dataR, FastqReaderS.init, hq]

/-- C8 counterexample: on the zero-record file the quality query raises, the
error is not cached, and two calls on the same handle make two full passes
(the claim allows at most one). -/
theorem fastq_C8_counterexample :
    (twice collect_quality_dataR ([] : List String)).2.1.passes = 2
    ∧ (twice collect_quality_dataR ([] : List String)).2.2
        = (twice collect_quality_dataR ([] : List String)).1.2 := by
  with_unfolding_all decide

/-- C8 witness: the amended statement instantiated at the example file,
where the quality pass succeeds. -/
theorem fastq_C8_witness :
    (twice collect_quality_dataR exFile).2.1.passes = 1 :=
  (fastq_C8_amended exFile).2.2.2.2.2 (by with_unfolding_all decide)
